import Mathlib

/-!
Verification of the `hyperlane-base` RocksDB wrapper
(`rust/hyperlane-base/src/db/mod.rs`): a typed, namespaced persistence layer
over an ordered key-value engine.

The storage engine (RocksDB) and the filesystem are external dependencies.
They are modelled here from the spec's external-interface contract:
the engine as a finite key-value map with put/get and an ordered
lexicographic scan over keys sharing a leading byte string, the filesystem
as an oracle for `canonicalize` and the engine open call.  Everything in
the `DB` wrapper itself (key construction, codec boundary, error taxonomy,
path handling) is translated directly from the source.
-/

namespace HyperlaneDb

/-- Byte strings: keys and values are raw byte sequences (`Vec<u8>`). -/
abbrev Bytes := List Nat

/-- Strict lexicographic comparison over raw bytes: the engine's native key
ordering, per the spec's engine contract. -/
def lexLt : Bytes → Bytes → Bool
  | [], [] => false
  | [], _ :: _ => true
  | _ :: _, [] => false
  | a :: as, b :: bs => if a < b then true else if b < a then false else lexLt as bs

/-- Non-strict key order used by the engine scan: `a` comes no later than `b`. -/
def entryLe (a b : Bytes × Bytes) : Prop := lexLt b.1 a.1 = false

/-- Strict key order on entries. -/
def entryLt (a b : Bytes × Bytes) : Prop := lexLt a.1 b.1 = true

instance : DecidableRel entryLe := fun a b => instDecidableEqBool (lexLt b.1 a.1) false

instance : DecidableRel entryLt := fun a b => instDecidableEqBool (lexLt a.1 b.1) true

theorem lexLt_irrefl (a : Bytes) : lexLt a a = false := by
  induction a with
  | nil => rfl
  | cons x xs ih => simp [lexLt, ih]

theorem lexLt_asymm {a b : Bytes} (h : lexLt a b = true) : lexLt b a = false := by
  induction a generalizing b with
  | nil =>
    cases b with
    | nil => simp [lexLt] at h
    | cons y ys => simp [lexLt]
  | cons x xs ih =>
    cases b with
    | nil => simp [lexLt] at h
    | cons y ys =>
      simp only [lexLt] at h ⊢
      rcases Nat.lt_trichotomy x y with hlt | heq | hgt
      · simp [hlt, Nat.not_lt.mpr (Nat.le_of_lt hlt)]
      · subst heq
        simp only [Nat.lt_irrefl, if_false] at h ⊢
        exact ih h
      · simp [hgt, Nat.not_lt.mpr (Nat.le_of_lt hgt)] at h

theorem lexLt_connex {a b : Bytes} (h : a ≠ b) : lexLt a b = true ∨ lexLt b a = true := by
  induction a generalizing b with
  | nil =>
    cases b with
    | nil => exact absurd rfl h
    | cons y ys => left; rfl
  | cons x xs ih =>
    cases b with
    | nil => right; rfl
    | cons y ys =>
      simp only [lexLt]
      rcases Nat.lt_trichotomy x y with hlt | heq | hgt
      · left; simp [hlt]
      · subst heq
        have hxs : xs ≠ ys := by
          intro he; exact h (by rw [he])
        rcases ih hxs with h1 | h1
        · left; simp [Nat.lt_irrefl, h1]
        · right; simp [Nat.lt_irrefl, h1]
      · right; simp [hgt, Nat.not_lt.mpr (Nat.le_of_lt hgt)]

theorem lexLt_le_trans {a b c : Bytes} (hba : lexLt b a = false)
    (hcb : lexLt c b = false) : lexLt c a = false := by
  induction c generalizing a b with
  | nil =>
    cases b with
    | nil =>
      cases a with
      | nil => rfl
      | cons _ _ => simp [lexLt] at hba
    | cons _ _ => simp [lexLt] at hcb
  | cons z zs ih =>
    cases a with
    | nil => rfl
    | cons x xs =>
      cases b with
      | nil => simp [lexLt] at hba
      | cons y ys =>
        simp only [lexLt] at hba hcb ⊢
        have hyx : ¬ y < x := by intro hlt; simp [hlt] at hba
        have hzy : ¬ z < y := by intro hlt; simp [hlt] at hcb
        have hzx : ¬ z < x := by omega
        by_cases hxz : x < z
        · simp [hzx, hxz]
        · have hx_eq : x = y := by omega
          have hy_eq : y = z := by omega
          subst hx_eq; subst hy_eq
          have h1 : lexLt ys xs = false := by simpa [Nat.lt_irrefl] using hba
          have h2 : lexLt zs ys = false := by simpa [Nat.lt_irrefl] using hcb
          simp [Nat.lt_irrefl, ih h1 h2]

instance : IsTotal (Bytes × Bytes) entryLe := by
  constructor
  intro a b
  by_cases h : a.1 = b.1
  · left; unfold entryLe; rw [h]; exact lexLt_irrefl b.1
  · rcases lexLt_connex h with h1 | h1
    · left; exact lexLt_asymm h1
    · right; exact lexLt_asymm h1

instance : IsTrans (Bytes × Bytes) entryLe := by
  constructor
  intro a b c hab hbc
  exact lexLt_le_trans hab hbc

instance : IsAntisymm (Bytes × Bytes) entryLt := by
  constructor
  intro a b hab hba
  exact absurd (lexLt_asymm hab) (by rw [hba]; exact fun h => Bool.noConfusion h)

/-- Modelled from the spec: the external storage engine (RocksDB) as a finite
key-value store.  `entries` is an association list in which the most recent
write for a key is the only binding for that key (a put replaces any prior
binding).  The spec's engine contract: `put(key_bytes, value_bytes)`,
`get(key_bytes)` returning an optional value, and an ordered scan. -/
structure Rocks where
  entries : List (Bytes × Bytes)
deriving DecidableEq

/-- Modelled from the spec: the engine's `put` — writes `value` under `key`
unconditionally, overwriting any prior value. -/
def Rocks.put (db : Rocks) (key value : Bytes) : Rocks :=
  ⟨(key, value) :: db.entries.filter (fun e => !(e.1 == key))⟩

/-- Modelled from the spec: the engine's `get` — the current value under
`key`, or `none` if no value exists. -/
def Rocks.get (db : Rocks) (key : Bytes) : Option Bytes :=
  (db.entries.find? (fun e => e.1 == key)).map (fun e => e.2)

/-- Modelled from the spec: the engine's scan contract — the entries whose
physical key starts with the byte string `pfx`, as (physical key, value)
pairs in the engine's native key ordering (lexicographic over raw bytes). -/
def Rocks.prefixScan (db : Rocks) (pfx : Bytes) : List (Bytes × Bytes) :=
  (List.insertionSort entryLe db.entries).filter (fun e => pfx.isPrefixOf e.1)

/-- A `Rocks` state is well formed when no key has two bindings; every state
reachable by `put` from the empty store is. -/
def Rocks.WF (db : Rocks) : Prop :=
  db.entries.Pairwise (fun a b => a.1 ≠ b.1)

/-- The path model: a filesystem path as a sequence of components, mirroring
the component view of Rust's `std::path::Path`. -/
inductive Component
  | parentDir
  | curDir
  | normal (s : String)
deriving DecidableEq

/-- How a component renders in the textual form of a path. -/
def Component.render : Component → String
  | .parentDir => ".."
  | .curDir => "."
  | .normal s => s

/-- A path: an optional root followed by components. -/
structure PathM where
  absolute : Bool
  components : List Component
deriving DecidableEq

/-- Rust `Path::file_name`: the last component when it is a normal component,
`none` when the path ends in `..` or is a root. -/
def PathM.file_name (p : PathM) : Option String :=
  match p.components.getLast? with
  | some (Component.normal s) => some s
  | _ => none

/-- Rust `Path::parent`: the path without its last component; `none` for a root
or empty path. -/
def PathM.parent (p : PathM) : Option PathM :=
  match p.components with
  | [] => none
  | _ :: _ => some ⟨p.absolute, p.components.dropLast⟩

/-- Rust `PathBuf::push` with a single normal component. -/
def PathM.push (p : PathM) (s : String) : PathM :=
  ⟨p.absolute, p.components ++ [Component.normal s]⟩

/-- Rust `Path::to_string_lossy`. -/
def PathM.to_string_lossy (p : PathM) : String :=
  (if p.absolute then "/" else "")
    ++ String.intercalate "/" (p.components.map Component.render)

/-- Rust `Path::new(".")`, the fallback used when the supplied path has no
parent. -/
def currentDir : PathM := ⟨false, [Component.curDir]⟩

/-- The DB error taxonomy, translated from the `DbError` enum.  The foreign
error payloads (`rocksdb::Error`, `io::Error`, `HyperlaneProtocolError`) are
opaque here and modelled as strings. -/
inductive DbError
  | RockError (e : String)
  | OpeningError (source : String) (path : PathM) (canonicalized : PathM)
  | InvalidDbPath (source : String) (path : String)
  | HyperlaneError (e : String)
deriving DecidableEq

/-- Modelled from the spec: the filesystem and engine-open boundary used by
`from_path`, as an oracle supplying the result of `Path::canonicalize` and
of `Rocks::open` (create-if-missing) at each path. -/
structure FsOracle where
  canonicalize : PathM → Except String PathM
  rocks_open : PathM → Except String Unit

/-- The `DB` handle.  The `Arc` sharing of the Rust `DB(Arc<Rocks>)` is a
resource-management concern with no effect on the store's functional state;
the handle carries the engine state directly and mutating operations return
the updated state. -/
structure DB where
  rocks : Rocks
deriving DecidableEq

/-- The `let path = { ... }` block of `DB::from_path`: canonicalize the
parent (or the current directory when there is none), mapping failure to
`InvalidDbPath` with the original path string, then re-append the file
name when there is one. -/
def resolve_path (fs : FsOracle) (db_path : PathM) : Except DbError PathM :=
  match fs.canonicalize (db_path.parent.getD currentDir) with
  | .error e => .error (DbError.InvalidDbPath e db_path.to_string_lossy)
  | .ok path =>
    .ok (match db_path.file_name with
         | some file_name => path.push file_name
         | none => path)

/-- Translation of `DB::from_path`: resolve the path, then open the engine with
create-if-missing, wrapping an engine failure in `OpeningError` together
with the original and resolved paths.  Returns the path the store was
opened at (the engine state itself is the oracle's concern). -/
def DB.from_path (fs : FsOracle) (db_path : PathM) : Except DbError PathM :=
  match resolve_path fs db_path with
  | .error e => .error e
  | .ok path =>
    match fs.rocks_open path with
    | .error e => .error (DbError.OpeningError e db_path path)
    | .ok _ => .ok path

/-- The `Encode` capability: a total serializer to bytes (`to_vec`). -/
structure Encode (V : Type) where
  to_vec : V → Bytes

/-- The `Decode` capability: a fallible deserializer (`read_from`), failing
with a protocol error on malformed input. -/
structure Decode (V : Type) where
  read_from : Bytes → Except String V

/-- Translation of `DB::_store`: store a value in the DB (`self.0.put(key, value)`). -/
def DB._store (db : DB) (key value : Bytes) : Except DbError DB :=
  .ok ⟨db.rocks.put key value⟩

/-- Translation of `DB::_retrieve`: retrieve a value from the DB (`self.0.get(key)`). -/
def DB._retrieve (db : DB) (key : Bytes) : Except DbError (Option Bytes) :=
  .ok (db.rocks.get key)

/-- Translation of `DB::prefix_store`: extend an empty buffer with the table name bytes and
then the key bytes, and store under the combined physical key. -/
def DB.prefix_store (db : DB) (pfx key value : Bytes) : Except DbError DB :=
  let buf : Bytes := []
  let buf := buf ++ pfx
  let buf := buf ++ key
  db._store buf value

/-- Translation of `DB::prefix_retrieve`: build the same combined physical key and
retrieve. -/
def DB.prefix_retrieve (db : DB) (pfx key : Bytes) : Except DbError (Option Bytes) :=
  let buf : Bytes := []
  let buf := buf ++ pfx
  let buf := buf ++ key
  db._retrieve buf

/-- Translation of `DB::store_encodable`: serialize the value with its encoder and delegate
to `prefix_store`. -/
def DB.store_encodable {V : Type} (db : DB) (encV : Encode V)
    (pfx key : Bytes) (value : V) : Except DbError DB :=
  db.prefix_store pfx key (encV.to_vec value)

/-- Translation of `DB::retrieve_decodable`: first `prefix_retrieve`, then decode a present value,
converting a protocol error into `DbError.HyperlaneError` (the `?` on the
transposed result). -/
def DB.retrieve_decodable {V : Type} (db : DB) (decV : Decode V)
    (pfx key : Bytes) : Except DbError (Option V) :=
  match db.prefix_retrieve pfx key with
  | .error e => .error e
  | .ok none => .ok none
  | .ok (some val) =>
    match decV.read_from val with
    | .error e => .error (DbError.HyperlaneError e)
    | .ok v => .ok (some v)

/-- Translation of `DB::store_keyed_encodable`: serialize the typed key with its encoder and
delegate to `store_encodable`. -/
def DB.store_keyed_encodable {K V : Type} (db : DB) (encK : Encode K)
    (encV : Encode V) (pfx : Bytes) (key : K) (value : V) : Except DbError DB :=
  db.store_encodable encV pfx (encK.to_vec key) value

/-- Translation of `DB::retrieve_keyed_decodable`: serialize the typed key and delegate to
`retrieve_decodable`. -/
def DB.retrieve_keyed_decodable {K V : Type} (db : DB) (encK : Encode K)
    (decV : Decode V) (pfx : Bytes) (key : K) : Except DbError (Option V) :=
  db.retrieve_decodable decV pfx (encK.to_vec key)

/-- Translation of `DB::prefix_iterator`: delegate the scan to the engine. -/
def DB.prefix_iterator (db : DB) (pfx : Bytes) : List (Bytes × Bytes) :=
  db.rocks.prefixScan pfx

theorem Rocks.get_put_same (db : Rocks) (k v : Bytes) :
    (db.put k v).get k = some v := by
  simp [Rocks.put, Rocks.get, List.find?]

theorem find_filter_ne {k k2 : Bytes} (h : k2 ≠ k) (l : List (Bytes × Bytes)) :
    List.find? (fun e => e.1 == k2) (l.filter (fun e => !(e.1 == k)))
      = List.find? (fun e => e.1 == k2) l := by
  induction l with
  | nil => rfl
  | cons e l ih =>
    cases hek : (e.1 == k) with
    | true =>
      have he : e.1 = k := beq_iff_eq.mp hek
      have hek2 : (e.1 == k2) = false := by
        rw [he]
        exact beq_eq_false_iff_ne.mpr (Ne.symm h)
      simp [List.filter, List.find?, hek, hek2, ih]
    | false =>
      cases hek2 : (e.1 == k2) with
      | true => simp [List.filter, List.find?, hek, hek2]
      | false => simp [List.filter, List.find?, hek, hek2, ih]

theorem Rocks.get_put_other (db : Rocks) {k k2 : Bytes} (v : Bytes)
    (h : k2 ≠ k) : (db.put k v).get k2 = db.get k2 := by
  have hne : (k == k2) = false := beq_eq_false_iff_ne.mpr (Ne.symm h)
  simp only [Rocks.put, Rocks.get, List.find?, hne]
  rw [find_filter_ne h]

theorem Rocks.get_eq_none_of_absent (db : Rocks) {k : Bytes}
    (h : ∀ e ∈ db.entries, e.1 ≠ k) : db.get k = none := by
  have hf : List.find? (fun e => e.1 == k) db.entries = none := by
    rw [List.find?_eq_none]
    intro e he
    simpa using h e he
  simp [Rocks.get, hf]

theorem find_map_eq_some_iff_mem {l : List (Bytes × Bytes)}
    (hwf : l.Pairwise (fun a b => a.1 ≠ b.1)) (kv : Bytes × Bytes) :
    kv ∈ l ↔ (l.find? (fun e => e.1 == kv.1)).map (fun e => e.2) = some kv.2 := by
  induction l with
  | nil => simp [List.find?]
  | cons e l ih =>
    rcases List.pairwise_cons.mp hwf with ⟨hhead, htail⟩
    cases hek : (e.1 == kv.1) with
    | true =>
      have he : e.1 = kv.1 := beq_iff_eq.mp hek
      constructor
      · intro hmem
        rcases List.mem_cons.mp hmem with heq | hmem2
        · simp [List.find?, hek, heq]
        · exact absurd he (hhead kv hmem2)
      · intro hEq
        simp [List.find?, hek] at hEq
        have : kv = e := Prod.ext he.symm hEq.symm
        exact this ▸ List.mem_cons_self e l
    | false =>
      have hne : e.1 ≠ kv.1 := beq_eq_false_iff_ne.mp hek
      constructor
      · intro hmem
        rcases List.mem_cons.mp hmem with heq | hmem2
        · exact absurd (congrArg Prod.fst heq).symm hne
        · simpa [List.find?, hek] using (ih htail).mp hmem2
      · intro hEq
        simp only [List.find?, hek] at hEq
        exact List.mem_cons_of_mem e ((ih htail).mpr hEq)

theorem mem_iff_get (db : Rocks) (hwf : db.WF) (kv : Bytes × Bytes) :
    kv ∈ db.entries ↔ db.get kv.1 = some kv.2 :=
  find_map_eq_some_iff_mem hwf kv

theorem entryLt_of_le_ne {a b : Bytes × Bytes} (hle : entryLe a b)
    (hne : a.1 ≠ b.1) : entryLt a b := by
  rcases lexLt_connex hne with h1 | h1
  · exact h1
  · unfold entryLe at hle
    rw [hle] at h1
    exact Bool.noConfusion h1

theorem entryLt_ne {a b : Bytes × Bytes} (h : entryLt a b) : a ≠ b := by
  intro heq
  subst heq
  unfold entryLt at h
  rw [lexLt_irrefl] at h
  exact Bool.noConfusion h

theorem Rocks.prefixScan_mem (db : Rocks) (hwf : db.WF) (pfx : Bytes)
    (kv : Bytes × Bytes) :
    kv ∈ db.prefixScan pfx ↔ pfx.isPrefixOf kv.1 = true ∧ db.get kv.1 = some kv.2 := by
  unfold Rocks.prefixScan
  rw [List.mem_filter, (List.perm_insertionSort entryLe db.entries).mem_iff,
    mem_iff_get db hwf kv]
  exact and_comm

theorem Rocks.prefixScan_sorted_le (db : Rocks) (pfx : Bytes) :
    (db.prefixScan pfx).Pairwise entryLe :=
  (List.sorted_insertionSort entryLe db.entries).filter _

theorem Rocks.prefixScan_keys_ne (db : Rocks) (hwf : db.WF) (pfx : Bytes) :
    (db.prefixScan pfx).Pairwise (fun a b => a.1 ≠ b.1) := by
  have hperm : db.entries.Pairwise (fun a b => a.1 ≠ b.1)
      → (List.insertionSort entryLe db.entries).Pairwise (fun a b => a.1 ≠ b.1) :=
    fun h =>
      ((List.perm_insertionSort entryLe db.entries).pairwise_iff
        (fun hxy => Ne.symm hxy)).mpr h
  exact (hperm hwf).filter _

theorem pairwise_lt_of_le_ne {l : List (Bytes × Bytes)}
    (hle : l.Pairwise entryLe) (hne : l.Pairwise (fun a b => a.1 ≠ b.1)) :
    l.Pairwise entryLt := by
  induction l with
  | nil => exact List.Pairwise.nil
  | cons e l ih =>
    rcases List.pairwise_cons.mp hle with ⟨h1, h2⟩
    rcases List.pairwise_cons.mp hne with ⟨h3, h4⟩
    exact List.pairwise_cons.mpr
      ⟨fun b hb => entryLt_of_le_ne (h1 b hb) (h3 b hb), ih h2 h4⟩

theorem Rocks.prefixScan_sorted_lt (db : Rocks) (hwf : db.WF) (pfx : Bytes) :
    (db.prefixScan pfx).Pairwise entryLt :=
  pairwise_lt_of_le_ne (db.prefixScan_sorted_le pfx) (db.prefixScan_keys_ne hwf pfx)

theorem Rocks.prefixScan_ext {d1 d2 : Rocks} (h1 : d1.WF) (h2 : d2.WF)
    (hget : ∀ k, d1.get k = d2.get k) (pfx : Bytes) :
    d1.prefixScan pfx = d2.prefixScan pfx := by
  have hs1 := d1.prefixScan_sorted_lt h1 pfx
  have hs2 := d2.prefixScan_sorted_lt h2 pfx
  have hmem : ∀ kv, kv ∈ d1.prefixScan pfx ↔ kv ∈ d2.prefixScan pfx := by
    intro kv
    rw [d1.prefixScan_mem h1 pfx kv, d2.prefixScan_mem h2 pfx kv, hget]
  have nd1 : (d1.prefixScan pfx).Nodup := hs1.imp (fun h => entryLt_ne h)
  have nd2 : (d2.prefixScan pfx).Nodup := hs2.imp (fun h => entryLt_ne h)
  exact List.eq_of_perm_of_sorted
    ((List.perm_ext_iff_of_nodup nd1 nd2).mpr hmem) hs1 hs2

theorem Rocks.WF_empty : Rocks.WF ⟨[]⟩ := List.Pairwise.nil

theorem Rocks.WF_put {db : Rocks} (h : db.WF) (k v : Bytes) : (db.put k v).WF := by
  unfold Rocks.WF Rocks.put
  refine List.pairwise_cons.mpr ⟨?_, h.filter _⟩
  intro b hb
  have hbk := (List.mem_filter.mp hb).2
  simp only [Bool.not_eq_eq_eq_not, Bool.not_true, beq_eq_false_iff_ne] at hbk
  exact fun hc => hbk hc.symm

/-- Sample codec for witnesses: a one-byte encoding of a natural number. -/
def natEncode : Encode Nat := ⟨fun n => [n]⟩

/-- Sample decoder for witnesses, a left inverse of `natEncode`. -/
def natDecode : Decode Nat :=
  ⟨fun l => match l with
    | [n] => .ok n
    | _ => .error "unexpected encoding length"⟩

/-- A freshly created, empty store. -/
def emptyDB : DB := ⟨⟨[]⟩⟩

/-- C1: for every supported typed value v (decoder a left inverse of the
encoder) and every table name and key, `retrieve_decodable` immediately
after `store_encodable` returns a present result equal to v. -/
theorem store_encodable_retrieve_decodable_round_trip {V : Type}
    (db : DB) (encV : Encode V) (decV : Decode V) (pfx key : Bytes) (v : V)
    (hinv : decV.read_from (encV.to_vec v) = .ok v) :
    (db.store_encodable encV pfx key v).bind
      (fun d2 => d2.retrieve_decodable decV pfx key) = .ok (some v) := by
  simp [DB.store_encodable, DB.prefix_store, DB._store, Except.bind,
    DB.retrieve_decodable, DB.prefix_retrieve, DB._retrieve,
    Rocks.get_put_same, hinv]

theorem store_encodable_retrieve_decodable_round_trip_witness :
    (emptyDB.store_encodable natEncode [0] [1] 7).bind
      (fun d2 => d2.retrieve_decodable natDecode [0] [1]) = .ok (some 7) :=
  store_encodable_retrieve_decodable_round_trip emptyDB natEncode natDecode
    [0] [1] 7 rfl

/-- C2: `prefix_store` writes under the physical key that is the byte
concatenation of the table name and the key, with no separator and no
length marker — it equals `_store` at the concatenated key — and
`prefix_retrieve` reads under exactly the same concatenated key. -/
theorem prefix_ops_use_concatenated_key (db : DB) (pfx key value : Bytes) :
    db.prefix_store pfx key value = db._store (pfx ++ key) value
    ∧ db.prefix_retrieve pfx key = db._retrieve (pfx ++ key) :=
  ⟨rfl, rfl⟩

/-- C4 (amended): retrieving a (table, key) pair whose concatenated physical
key was never written — which, under the caller discipline that no active
table name is a byte-prefix of another, is every pair that was never
stored — returns the explicit not-found result `.ok none`: not an error,
and in particular never a decode or engine failure for mere absence.  The
amendment is forced by the key-aliasing counterexample below: the pair
([0, 1], [2]) is never stored, yet its physical key coincides with that of
the stored pair ([0], [1, 2]). -/
theorem retrieve_decodable_absent {V : Type} (db : DB) (decV : Decode V)
    (pfx key : Bytes)
    (habs : ∀ e ∈ db.rocks.entries, e.1 ≠ pfx ++ key) :
    db.retrieve_decodable decV pfx key = .ok none := by
  have hg : db.rocks.get (pfx ++ key) = none :=
    db.rocks.get_eq_none_of_absent habs
  simp [DB.retrieve_decodable, DB.prefix_retrieve, DB._retrieve, hg]

theorem retrieve_decodable_absent_witness :
    emptyDB.retrieve_decodable natDecode [0] [1] = .ok none :=
  retrieve_decodable_absent emptyDB natDecode [0] [1] (by simp [emptyDB])

/-- C5: storing v1 then v2 under the same (table, key) leaves retrieval
returning v2 — never v1 and never an error; re-storing is a silent
overwrite. -/
theorem prefix_store_overwrite (db : DB) (pfx key v1 v2 : Bytes) :
    ((db.prefix_store pfx key v1).bind
      (fun d1 => d1.prefix_store pfx key v2)).bind
      (fun d2 => d2.prefix_retrieve pfx key) = .ok (some v2) := by
  simp [DB.prefix_store, DB._store, DB.prefix_retrieve, DB._retrieve,
    Except.bind, Rocks.get_put_same]

/-- C6: for distinct table names where neither is a byte-prefix of the
other, storing under (p1, k) leaves retrieval under (p2, k) unchanged. -/
theorem prefix_store_isolation (db : DB) (p1 p2 k v : Bytes) (hne : p1 ≠ p2)
    (h12 : p1.isPrefixOf p2 = false) (h21 : p2.isPrefixOf p1 = false) :
    (db.prefix_store p1 k v).bind (fun d => d.prefix_retrieve p2 k)
      = db.prefix_retrieve p2 k := by
  have hkey : p2 ++ k ≠ p1 ++ k :=
    fun hc => hne (List.append_cancel_right hc).symm
  simp [DB.prefix_store, DB._store, DB.prefix_retrieve, DB._retrieve,
    Except.bind, Rocks.get_put_other _ v hkey]

theorem prefix_store_isolation_witness :
    (emptyDB.prefix_store [0] [7] [2]).bind
      (fun d => d.prefix_retrieve [1] [7]) = emptyDB.prefix_retrieve [1] [7] :=
  prefix_store_isolation emptyDB [0] [1] [7] [2] (by decide) rfl rfl

/-- A scan witness store holding suffixes inserted out of order under table
name `[0]`, plus an entry of another table. -/
def scanDB : DB := ⟨⟨[([0, 2], [10]), ([0, 1], [11]), ([1, 0], [12])]⟩⟩

/-- C7: the iterator for a table name yields exactly the entries whose
physical key starts with it, in ascending lexicographic byte order of the
full physical key; and it depends only on the store's current contents,
not on insertion order. -/
theorem prefix_iterator_contract (db : DB) (pfx : Bytes) (hwf : db.rocks.WF) :
    (∀ kv, kv ∈ db.prefix_iterator pfx ↔
      (pfx.isPrefixOf kv.1 = true ∧ db.rocks.get kv.1 = some kv.2))
    ∧ (db.prefix_iterator pfx).Pairwise (fun a b => lexLt a.1 b.1 = true)
    ∧ (∀ db2 : DB, db2.rocks.WF → (∀ k, db.rocks.get k = db2.rocks.get k) →
        db.prefix_iterator pfx = db2.prefix_iterator pfx) := by
  refine ⟨fun kv => db.rocks.prefixScan_mem hwf pfx kv, ?_, ?_⟩
  · exact (db.rocks.prefixScan_sorted_lt hwf pfx).imp (fun h => h)
  · intro db2 h2 hget
    exact Rocks.prefixScan_ext hwf h2 hget pfx

theorem prefix_iterator_contract_witness :
    (∀ kv, kv ∈ scanDB.prefix_iterator [0] ↔
      (List.isPrefixOf [0] kv.1 = true ∧ scanDB.rocks.get kv.1 = some kv.2))
    ∧ (scanDB.prefix_iterator [0]).Pairwise (fun a b => lexLt a.1 b.1 = true)
    ∧ (∀ db2 : DB, db2.rocks.WF → (∀ k, scanDB.rocks.get k = db2.rocks.get k) →
        scanDB.prefix_iterator [0] = db2.prefix_iterator [0]) :=
  prefix_iterator_contract scanDB [0] (by unfold Rocks.WF; decide)

/-- C8: the typed-key operations are definitionally the byte-key operations
applied to the key's encoding. -/
theorem keyed_ops_delegate {K V : Type} (db : DB) (encK : Encode K)
    (encV : Encode V) (decV : Decode V) (pfx : Bytes) (k : K) (v : V) :
    db.store_keyed_encodable encK encV pfx k v
        = db.store_encodable encV pfx (encK.to_vec k) v
    ∧ db.retrieve_keyed_decodable encK decV pfx k
        = db.retrieve_decodable decV pfx (encK.to_vec k) :=
  ⟨rfl, rfl⟩

/-- A caller-supplied relative path `a/db` used in the open witnesses. -/
def samplePath : PathM := ⟨false, [Component.normal "a", Component.normal "db"]⟩

/-- An oracle whose canonicalize call fails (missing parent directory). -/
def failFs : FsOracle :=
  ⟨fun _ => .error "No such file or directory", fun _ => .ok ()⟩

/-- An oracle where canonicalization and the engine open both succeed. -/
def okFs : FsOracle :=
  ⟨fun _ => .ok ⟨true, [Component.normal "data"]⟩, fun _ => .ok ()⟩

/-- An oracle where canonicalization succeeds but the engine open fails. -/
def openFailFs : FsOracle :=
  ⟨fun _ => .ok ⟨true, [Component.normal "data"]⟩, fun _ => .error "lock held"⟩

/-- C3: opening resolves the parent (or the current directory when there is
none) to canonical form and re-appends the final component; when the parent
cannot be canonicalized it fails with the path-resolution error carrying
the original path string and the underlying cause. -/
theorem from_path_parent_resolution (fs : FsOracle) (db_path : PathM) :
    (∀ e, fs.canonicalize (db_path.parent.getD currentDir) = .error e →
      DB.from_path fs db_path
        = .error (DbError.InvalidDbPath e db_path.to_string_lossy))
    ∧ (∀ p f, fs.canonicalize (db_path.parent.getD currentDir) = .ok p →
      db_path.file_name = some f →
      resolve_path fs db_path = .ok (p.push f)) := by
  constructor
  · intro e he
    simp [DB.from_path, resolve_path, he]
  · intro p f hp hf
    simp [resolve_path, hp, hf]

theorem from_path_parent_resolution_witness :
    DB.from_path failFs samplePath
      = .error (DbError.InvalidDbPath "No such file or directory"
          samplePath.to_string_lossy)
    ∧ resolve_path okFs samplePath
      = .ok (PathM.push ⟨true, [Component.normal "data"]⟩ "db") :=
  ⟨(from_path_parent_resolution failFs samplePath).1 _ rfl,
   (from_path_parent_resolution okFs samplePath).2 _ "db" rfl rfl⟩

/-- C9: when the engine open fails, `from_path` returns `OpeningError`
carrying the original supplied path, the resolved path and the engine
cause; that variant is distinct from `InvalidDbPath` and from the plain
engine-error variant. -/
theorem from_path_opening_error (fs : FsOracle) (db_path p : PathM) (e : String)
    (hres : resolve_path fs db_path = .ok p)
    (hopen : fs.rocks_open p = .error e) :
    DB.from_path fs db_path = .error (DbError.OpeningError e db_path p)
    ∧ (∀ e2 s, DbError.OpeningError e db_path p ≠ DbError.InvalidDbPath e2 s)
    ∧ (∀ e2, DbError.OpeningError e db_path p ≠ DbError.RockError e2) := by
  refine ⟨?_, fun e2 s h => DbError.noConfusion h,
    fun e2 h => DbError.noConfusion h⟩
  simp [DB.from_path, hres, hopen]

theorem from_path_opening_error_witness :
    DB.from_path openFailFs samplePath
      = .error (DbError.OpeningError "lock held" samplePath
          (PathM.push ⟨true, [Component.normal "data"]⟩ "db"))
    ∧ (∀ e2 s, DbError.OpeningError "lock held" samplePath
          (PathM.push ⟨true, [Component.normal "data"]⟩ "db")
        ≠ DbError.InvalidDbPath e2 s)
    ∧ (∀ e2, DbError.OpeningError "lock held" samplePath
          (PathM.push ⟨true, [Component.normal "data"]⟩ "db")
        ≠ DbError.RockError e2) :=
  from_path_opening_error openFailFs samplePath _ "lock held" rfl rfl

/-- C10: when the supplied path has no final component, nothing is
re-appended after canonicalizing the parent — the store is opened at the
canonicalized parent itself rather than failing. -/
theorem from_path_no_file_name (fs : FsOracle) (db_path p : PathM)
    (hfn : db_path.file_name = none)
    (hcan : fs.canonicalize (db_path.parent.getD currentDir) = .ok p)
    (hopen : fs.rocks_open p = .ok ()) :
    DB.from_path fs db_path = .ok p := by
  simp [DB.from_path, resolve_path, hcan, hfn, hopen]

theorem from_path_no_file_name_witness :
    DB.from_path okFs ⟨true, []⟩ = .ok ⟨true, [Component.normal "data"]⟩ :=
  from_path_no_file_name okFs ⟨true, []⟩ ⟨true, [Component.normal "data"]⟩
    rfl rfl rfl

/-- C4, the claim as frozen, is false on the code: the (table, key) pair
([0, 1], [2]) was never stored — the only store was under the distinct pair
([0], [1, 2]) — yet retrieval under it returns a present value, because the
two pairs concatenate to the same physical key [0, 1, 2]. -/
theorem retrieve_decodable_absent_counterexample :
    (([0] : Bytes), ([1, 2] : Bytes)) ≠ (([0, 1] : Bytes), ([2] : Bytes))
    ∧ (emptyDB.store_encodable natEncode [0] [1, 2] 7).bind
        (fun d => d.retrieve_decodable natDecode [0, 1] [2]) = .ok (some 7) :=
  ⟨by decide, rfl⟩
